import Mathlib

/-!
Shallow embedding of the `memory_units` crate (src/lib.rs): type-safe
conversion between bytes, machine words and memory pages.

The crate wraps `usize` in three newtypes `Bytes`, `Words`, `Pages`.
Arithmetic and the conversions use native `usize` arithmetic, which in a
checked (debug) build faults on overflow, on subtraction below zero and on
division by zero.  We model `usize` arithmetic for a platform whose
pointers are `w` bytes wide as checked operations on `Nat` returning
`Option Nat` (`none` = arithmetic fault), with `usize::MAX = 2 ^ (8 * w) - 1`.
The page size `P` (the crate's `PAGE_SIZE.0`: 4096, or 65536 on wasm32)
and the word size `w` (the crate's `mem::size_of::<usize>()`) are
parameters of the definitions.
-/

namespace MemoryUnits

/-- The value `usize::MAX` on a platform whose pointers are `w` bytes wide. -/
def usizeMax (w : Nat) : Nat := 2 ^ (8 * w) - 1

/-- Checked `usize` addition: `a + b`, faulting when the sum exceeds `usize::MAX`. -/
def checkedAdd (w a b : Nat) : Option Nat :=
  if a + b ≤ usizeMax w then some (a + b) else none

/-- Checked `usize` subtraction: `a - b`, faulting when `b > a`. -/
def checkedSub (a b : Nat) : Option Nat :=
  if b ≤ a then some (a - b) else none

/-- Checked `usize` multiplication: `a * b`, faulting when the product exceeds `usize::MAX`. -/
def checkedMul (w a b : Nat) : Option Nat :=
  if a * b ≤ usizeMax w then some (a * b) else none

/-- Checked `usize` division: `a / b`, faulting when `b = 0`. -/
def checkedDiv (a b : Nat) : Option Nat :=
  if b = 0 then none else some (a / b)

/-- Memory size specified in bytes (`pub struct Bytes(pub usize)`). -/
structure Bytes where
  val : Nat
deriving DecidableEq, Repr

/-- Memory size specified in words (`pub struct Words(pub usize)`). -/
structure Words where
  val : Nat
deriving DecidableEq, Repr

/-- Memory size specified in memory pages (`pub struct Pages(pub usize)`). -/
structure Pages where
  val : Nat
deriving DecidableEq, Repr

/-- The crate's `PAGE_SIZE` on non-wasm32 targets: `Bytes(4096)`. -/
def PAGE_SIZE_default : Bytes := Bytes.mk 4096

/-- The crate's `PAGE_SIZE` on wasm32 targets: `Bytes(65536)`. -/
def PAGE_SIZE_wasm32 : Bytes := Bytes.mk 65536

/-- The crate's `size_of::<T>()`: wraps the layout size reported by
`mem::size_of::<T>()` (here taken as a parameter) in `Bytes`. -/
def size_of (layoutSize : Nat) : Bytes := Bytes.mk layoutSize

/-- The helper `fn round_up_to(n, divisor) = (n + divisor - 1) / divisor`,
with the `usize` addition, subtraction and division checked as in a debug
build (the addition `n + divisor` is evaluated first and can overflow). -/
def round_up_to (w n divisor : Nat) : Option Nat :=
  (checkedAdd w n divisor).bind fun s =>
    (checkedSub s 1).bind fun t =>
      checkedDiv t divisor

/-- The crate's `impl From<Words> for Bytes`:
`Bytes(words.0 * mem::size_of::<usize>())`. -/
def wordsToBytes (w : Nat) (x : Words) : Option Bytes :=
  (checkedMul w x.val w).map Bytes.mk

/-- The crate's `impl From<Pages> for Bytes`: `Bytes(pages.0 * PAGE_SIZE.0)`. -/
def pagesToBytes (w P : Nat) (x : Pages) : Option Bytes :=
  (checkedMul w x.val P).map Bytes.mk

/-- The crate's `impl From<Pages> for Words`:
`Words(pages.0 * PAGE_SIZE.0 / mem::size_of::<usize>())`. -/
def pagesToWords (w P : Nat) (x : Pages) : Option Words :=
  ((checkedMul w x.val P).bind fun n => checkedDiv n w).map Words.mk

/-- The crate's `impl RoundUpTo<Words> for Bytes`:
`Words(round_up_to(self.0, mem::size_of::<usize>()))`. -/
def Bytes.roundUpToWords (w : Nat) (b : Bytes) : Option Words :=
  (round_up_to w b.val w).map Words.mk

/-- The crate's `impl RoundUpTo<Pages> for Bytes`:
`Pages(round_up_to(self.0, PAGE_SIZE.0))`. -/
def Bytes.roundUpToPages (w P : Nat) (b : Bytes) : Option Pages :=
  (round_up_to w b.val P).map Pages.mk

/-- The crate's `impl RoundUpTo<Pages> for Words`: convert to bytes first
(`let bytes: Bytes = self.into()`), then round up to pages. -/
def Words.roundUpToPages (w P : Nat) (x : Words) : Option Pages :=
  (wordsToBytes w x).bind (Bytes.roundUpToPages w P)

/-- `impl_unit_ops!` addition for `Bytes` with a `Bytes` right operand:
`Bytes(self.0 + rhs.into().0)` (the `Into` conversion is the identity). -/
def Bytes.add (w : Nat) (a b : Bytes) : Option Bytes :=
  (checkedAdd w a.val b.val).map Bytes.mk

/-- `impl_unit_ops!` subtraction for `Bytes` with a `Bytes` right operand:
`Bytes(self.0 - rhs.into().0)`. -/
def Bytes.sub (a b : Bytes) : Option Bytes :=
  (checkedSub a.val b.val).map Bytes.mk

/-- `impl_unit_ops!` division for `Bytes` with a `Bytes` right operand:
`Bytes(self.0 / rhs.into().0)`. -/
def Bytes.div (a b : Bytes) : Option Bytes :=
  (checkedDiv a.val b.val).map Bytes.mk

/-- `impl_unit_ops!` addition for `Bytes` with a `Pages` right operand:
the right operand is first converted exactly via `From<Pages> for Bytes`
(`rhs.into()`), then the wrapped integers are added. -/
def Bytes.addPages (w P : Nat) (a : Bytes) (p : Pages) : Option Bytes :=
  (pagesToBytes w P p).bind fun pb => Bytes.add w a pb

/-!  Shared helper lemmas.  -/

/-- Behaviour of the checked ceiling-division helper when the intermediate
addition `n + d` fits in `usize`: it returns `(n + d - 1) / d`, which covers
`n` and is least among counts of `d`-sized chunks covering `n` — that is, it
is exactly the ceiling of `n / d`. -/
theorem round_up_to_spec (w n d : Nat) (hd : 0 < d) (hfit : n + d ≤ usizeMax w) :
    round_up_to w n d = some ((n + d - 1) / d) ∧
    n ≤ ((n + d - 1) / d) * d ∧
    ∀ m, n ≤ m * d → (n + d - 1) / d ≤ m := by
  have h1 : 1 ≤ n + d := by omega
  refine ⟨?_, ?_, ?_⟩
  · simp [round_up_to, checkedAdd, checkedSub, checkedDiv, hfit, h1, hd.ne']
  · have hdm := Nat.div_add_mod (n + d - 1) d
    have hmod : (n + d - 1) % d < d := Nat.mod_lt _ hd
    have hc := Nat.mul_comm d ((n + d - 1) / d)
    omega
  · intro m hm
    rw [Nat.div_le_iff_le_mul_add_pred hd]
    have hc := Nat.mul_comm d m
    omega

/-!  Claim theorems.  -/

/-- C1 counterexample: with 4-byte words (`usize::MAX = 2^32 - 1`), rounding
`Bytes(2^32 - 1)` up to words faults on the intermediate addition instead of
returning the mathematical ceiling `Words(2^30)`. -/
theorem bytes_roundUpToWords_ceil_counterexample :
    Bytes.roundUpToWords 4 (Bytes.mk (2 ^ 32 - 1)) = none ∧
    Bytes.roundUpToWords 4 (Bytes.mk (2 ^ 32 - 1)) ≠ some (Words.mk (2 ^ 30)) := by
  decide

/-- C1 (amended): for every byte count `b` whose intermediate sum `b + w`
fits in `usize`, the round-up conversion from `Bytes` to `Words` returns
exactly the ceiling of `b / w`, computed as `(b + w - 1) / w`: the result
covers `b` and is least among word counts covering `b`. -/
theorem bytes_roundUpToWords_is_ceil (w b : Nat) (hw : 0 < w)
    (hfit : b + w ≤ usizeMax w) :
    Bytes.roundUpToWords w (Bytes.mk b) = some (Words.mk ((b + w - 1) / w)) ∧
    b ≤ ((b + w - 1) / w) * w ∧
    ∀ m, b ≤ m * w → (b + w - 1) / w ≤ m := by
  obtain ⟨h1, h2, h3⟩ := round_up_to_spec w b w hw hfit
  exact ⟨by simp [Bytes.roundUpToWords, h1], h2, h3⟩

/-- C1 witness: with `w = 4`, `Bytes(13)`, `Bytes(16)` and `Bytes(17)` round
up to `Words(4)`, `Words(4)` and `Words(5)` respectively. -/
theorem bytes_roundUpToWords_is_ceil_witness :
    Bytes.roundUpToWords 4 (Bytes.mk 13) = some (Words.mk 4) ∧
    Bytes.roundUpToWords 4 (Bytes.mk 16) = some (Words.mk 4) ∧
    Bytes.roundUpToWords 4 (Bytes.mk 17) = some (Words.mk 5) := by
  refine ⟨?_, ?_, ?_⟩
  · exact (bytes_roundUpToWords_is_ceil 4 13 (by decide) (by decide)).1
  · exact (bytes_roundUpToWords_is_ceil 4 16 (by decide) (by decide)).1
  · exact (bytes_roundUpToWords_is_ceil 4 17 (by decide) (by decide)).1

/-- C3 counterexample: with 4-byte words and 4096-byte pages, the exact
conversion of `Pages(2^32 - 1)` to bytes overflows `usize` and faults rather
than producing `(2^32 - 1) * 4096` bytes. -/
theorem pagesToBytes_exact_counterexample :
    pagesToBytes 4 4096 (Pages.mk (2 ^ 32 - 1)) = none ∧
    pagesToBytes 4 4096 (Pages.mk (2 ^ 32 - 1)) ≠
      some (Bytes.mk ((2 ^ 32 - 1) * 4096)) := by
  decide

/-- C3 (amended): for every `n` such that `n * P` is representable in
`usize`, the exact conversion of `Pages(n)` to `Bytes` produces exactly
`n * P` bytes — multiplication by the page size, no rounding. -/
theorem pagesToBytes_exact (w P n : Nat) (hfit : n * P ≤ usizeMax w) :
    pagesToBytes w P (Pages.mk n) = some (Bytes.mk (n * P)) := by
  simp [pagesToBytes, checkedMul, hfit]

/-- C3 witness: `Pages(3)` converts exactly to `Bytes(3 * 4096)` with
4-byte words and 4096-byte pages. -/
theorem pagesToBytes_exact_witness :
    pagesToBytes 4 4096 (Pages.mk 3) = some (Bytes.mk (3 * 4096)) :=
  pagesToBytes_exact 4 4096 3 (by decide)

/-- C2 counterexample: with 4-byte words and 4096-byte pages, take
`n = 2^20 - 1`, whose exact byte conversion `2^32 - 4096` still fits in
`usize`; rounding that byte count back up to pages overflows the
intermediate addition, so the round trip faults instead of returning
`Pages(2^20 - 1)`. -/
theorem pages_roundtrip_counterexample :
    (pagesToBytes 4 4096 (Pages.mk (2 ^ 20 - 1))).bind (Bytes.roundUpToPages 4 4096) = none ∧
    (pagesToBytes 4 4096 (Pages.mk (2 ^ 20 - 1))).bind (Bytes.roundUpToPages 4 4096) ≠
      some (Pages.mk (2 ^ 20 - 1)) := by
  decide

/-- C2 (amended): converting `Pages(n)` to bytes exactly and then rounding
that byte count back up to pages returns `Pages(n)`, for every page count
`n` such that the checked intermediate sum `n * P + P` stays within
`usize::MAX`. -/
theorem pages_roundtrip (w P n : Nat) (hP : 0 < P)
    (hfit : n * P + P ≤ usizeMax w) :
    (pagesToBytes w P (Pages.mk n)).bind (Bytes.roundUpToPages w P) =
      some (Pages.mk n) := by
  rw [pagesToBytes_exact w P n (by omega)]
  obtain ⟨h1, h2, h3⟩ := round_up_to_spec w (n * P) P hP hfit
  have hle : (n * P + P - 1) / P ≤ n := h3 n (le_refl _)
  have hge : n ≤ (n * P + P - 1) / P := Nat.le_of_mul_le_mul_right h2 hP
  have hq : (n * P + P - 1) / P = n := Nat.le_antisymm hle hge
  simp [Bytes.roundUpToPages, h1, hq]

/-- C2 witness: `Pages(7)` converted to bytes and rounded back up to pages
is `Pages(7)` again, with 4-byte words and 4096-byte pages. -/
theorem pages_roundtrip_witness :
    (pagesToBytes 4 4096 (Pages.mk 7)).bind (Bytes.roundUpToPages 4 4096) =
      some (Pages.mk 7) :=
  pages_roundtrip 4 4096 7 (by decide) (by decide)

/-- C4 counterexample: with 4-byte words and 4096-byte pages,
`Bytes(0) + Pages(2^32 - 1)` faults on the exact conversion of the right
operand instead of returning `Bytes(0 + (2^32 - 1) * 4096)`. -/
theorem bytes_add_pages_counterexample :
    Bytes.addPages 4 4096 (Bytes.mk 0) (Pages.mk (2 ^ 32 - 1)) = none ∧
    Bytes.addPages 4 4096 (Bytes.mk 0) (Pages.mk (2 ^ 32 - 1)) ≠
      some (Bytes.mk (0 + (2 ^ 32 - 1) * 4096)) := by
  decide

/-- C4 (amended): adding a `Pages` right operand to `Bytes` first converts it
with the exact (never the rounding) conversion and then adds the wrapped
integers: whenever `p * P` and `a + p * P` are representable in `usize`,
`Bytes(a) + Pages(p) = Bytes(a + p * P)`; in particular
`Bytes(0) + Pages(1) = Bytes(P)`. -/
theorem bytes_add_pages (w P a p : Nat) (h1 : p * P ≤ usizeMax w)
    (h2 : a + p * P ≤ usizeMax w) :
    Bytes.addPages w P (Bytes.mk a) (Pages.mk p) = some (Bytes.mk (a + p * P)) := by
  simp only [Bytes.addPages]
  rw [pagesToBytes_exact w P p h1]
  simp [Bytes.add, checkedAdd, h2]

/-- C4 witness: `Bytes(0) + Pages(1) = Bytes(PAGE_SIZE)` with 4-byte words
and the default 4096-byte page size. -/
theorem bytes_add_pages_witness :
    Bytes.addPages 4 PAGE_SIZE_default.val (Bytes.mk 0) (Pages.mk 1) =
      some (Bytes.mk (0 + 1 * PAGE_SIZE_default.val)) :=
  bytes_add_pages 4 PAGE_SIZE_default.val 0 1 (by decide) (by decide)

/-- C5 counterexample: with 4-byte words and 4096-byte pages, rounding
`Words(2^32 - 1)` up to pages faults on the exact conversion to bytes
instead of returning `Pages(ceil((2^32 - 1) * 4 / 4096)) = Pages(2^22)`. -/
theorem words_roundUpToPages_counterexample :
    Words.roundUpToPages 4 4096 (Words.mk (2 ^ 32 - 1)) = none ∧
    Words.roundUpToPages 4 4096 (Words.mk (2 ^ 32 - 1)) ≠
      some (Pages.mk (2 ^ 22)) := by
  decide

/-- C5 (amended): rounding `Words(n)` up to pages is computed by first
exactly converting to bytes and then rounding that byte count up to pages
(this equation holds unconditionally, by definition); whenever the
intermediate sum `n * w + P` is representable in `usize`, the result is
exactly `Pages((n * w + P - 1) / P)`, the true ceiling of `n * w / P`. -/
theorem words_roundUpToPages_via_bytes (w P n : Nat) (_hw : 0 < w) (hP : 0 < P)
    (hfit : n * w + P ≤ usizeMax w) :
    Words.roundUpToPages w P (Words.mk n) =
      (wordsToBytes w (Words.mk n)).bind (Bytes.roundUpToPages w P) ∧
    Words.roundUpToPages w P (Words.mk n) = some (Pages.mk ((n * w + P - 1) / P)) ∧
    n * w ≤ ((n * w + P - 1) / P) * P ∧
    ∀ m, n * w ≤ m * P → (n * w + P - 1) / P ≤ m := by
  obtain ⟨h1, h2, h3⟩ := round_up_to_spec w (n * w) P hP hfit
  refine ⟨rfl, ?_, h2, h3⟩
  have hmul : n * w ≤ usizeMax w := by omega
  simp [Words.roundUpToPages, wordsToBytes, checkedMul, hmul,
    Bytes.roundUpToPages, h1]

/-- C5 witness: `Words(3)` with 4-byte words and 4096-byte pages rounds up
through `Bytes(12)` to `Pages(1)`. -/
theorem words_roundUpToPages_via_bytes_witness :
    Words.roundUpToPages 4 4096 (Words.mk 3) =
      some (Pages.mk ((3 * 4 + 4096 - 1) / 4096)) :=
  (words_roundUpToPages_via_bytes 4 4096 3 (by decide) (by decide) (by decide)).2.1

/-- C6: the exact `Pages` to `Words` conversion multiplies the page count by
the page size in bytes and divides by the word size; because the page size
is a multiple of the word size, the division is exact and no information is
lost (`(p * P / w) * w` recovers `p * P`). -/
theorem pagesToWords_exact (w P p : Nat) (hw : 0 < w) (hdvd : w ∣ P)
    (hfit : p * P ≤ usizeMax w) :
    pagesToWords w P (Pages.mk p) = some (Words.mk (p * P / w)) ∧
    (p * P / w) * w = p * P := by
  constructor
  · simp [pagesToWords, checkedMul, checkedDiv, hfit, hw.ne']
  · exact Nat.div_mul_cancel (hdvd.mul_left p)

/-- C6 witness: on a platform with 4096-byte pages and 4-byte words,
`Pages(1)` converts exactly to `Words(1024)`. -/
theorem pagesToWords_exact_witness :
    pagesToWords 4 4096 (Pages.mk 1) = some (Words.mk 1024) := by
  have h := (pagesToWords_exact 4 4096 1 (by decide) (by decide) (by decide)).1
  simpa using h

/-- C7: same-unit arithmetic applies the corresponding checked integer
operation to the wrapped integers: addition returns the exact sum whenever
it is representable and never returns a wrong sum, subtraction faults when
the subtrahend exceeds the minuend, and division by `Bytes(0)` faults. -/
theorem bytes_same_unit_arith (w a b : Nat) :
    (a + b ≤ usizeMax w →
      Bytes.add w (Bytes.mk a) (Bytes.mk b) = some (Bytes.mk (a + b))) ∧
    (∀ c, Bytes.add w (Bytes.mk a) (Bytes.mk b) = some (Bytes.mk c) → c = a + b) ∧
    (a < b → Bytes.sub (Bytes.mk a) (Bytes.mk b) = none) ∧
    Bytes.div (Bytes.mk a) (Bytes.mk 0) = none := by
  refine ⟨?_, ?_, ?_, ?_⟩
  · intro h
    simp [Bytes.add, checkedAdd, h]
  · intro c hc
    by_cases h : a + b ≤ usizeMax w
    · simp [Bytes.add, checkedAdd, h] at hc
      omega
    · simp [Bytes.add, checkedAdd, h] at hc
  · intro h
    simp [Bytes.sub, checkedSub, Nat.not_le.mpr h]
  · simp [Bytes.div, checkedDiv]

/-- C7 witness: `Bytes(1) + Bytes(2) = Bytes(3)`, `Bytes(1) - Bytes(2)`
faults, and `Bytes(5) / Bytes(0)` faults, with 4-byte words. -/
theorem bytes_same_unit_arith_witness :
    Bytes.add 4 (Bytes.mk 1) (Bytes.mk 2) = some (Bytes.mk 3) ∧
    Bytes.sub (Bytes.mk 1) (Bytes.mk 2) = none ∧
    Bytes.div (Bytes.mk 5) (Bytes.mk 0) = none := by
  obtain ⟨h1, -, h3, -⟩ := bytes_same_unit_arith 4 1 2
  exact ⟨h1 (by decide), h3 (by decide), (bytes_same_unit_arith 4 5 0).2.2.2⟩

/-- C8: `size_of` of a zero-sized layout is `Bytes(0)`, and rounding
`Bytes(0)` up to words or pages yields zero of the destination unit, for any
positive word and page sizes representable in `usize`. -/
theorem size_of_zero_round_up_zero (w P : Nat) (hw : 0 < w)
    (hwfit : w ≤ usizeMax w) (hP : 0 < P) (hPfit : P ≤ usizeMax w) :
    size_of 0 = Bytes.mk 0 ∧
    Bytes.roundUpToWords w (size_of 0) = some (Words.mk 0) ∧
    Bytes.roundUpToPages w P (size_of 0) = some (Pages.mk 0) := by
  refine ⟨rfl, ?_, ?_⟩
  · obtain ⟨h1, -, -⟩ := round_up_to_spec w 0 w hw (by omega)
    have hz : (w - 1) / w = 0 := Nat.div_eq_of_lt (by omega)
    simp [Bytes.roundUpToWords, size_of, h1, hz]
  · obtain ⟨h1, -, -⟩ := round_up_to_spec w 0 P hP (by omega)
    have hz : (P - 1) / P = 0 := Nat.div_eq_of_lt (by omega)
    simp [Bytes.roundUpToPages, size_of, h1, hz]

/-- C8 witness: with 4-byte words and 4096-byte pages, `size_of` of a
zero-sized layout is `Bytes(0)` and rounds up to `Words(0)` and `Pages(0)`. -/
theorem size_of_zero_round_up_zero_witness :
    size_of 0 = Bytes.mk 0 ∧
    Bytes.roundUpToWords 4 (size_of 0) = some (Words.mk 0) ∧
    Bytes.roundUpToPages 4 4096 (size_of 0) = some (Pages.mk 0) :=
  size_of_zero_round_up_zero 4 4096 (by decide) (by decide) (by decide) (by decide)

/-- C9: for every divisor `d > 0` and every `n` greater than
`usize::MAX - (d - 1)`, the checked ceiling-division helper overflows the
intermediate addition `n + d` and faults instead of returning the
mathematical ceiling. -/
theorem round_up_to_overflows (w n d : Nat) (hd : 0 < d)
    (hn : usizeMax w - (d - 1) < n) :
    round_up_to w n d = none := by
  have h : ¬ (n + d ≤ usizeMax w) := by omega
  simp [round_up_to, checkedAdd, h]

/-- C9 witness: `Bytes(usize::MAX).round_up_to::<Pages>()` faults with
4-byte words and 4096-byte pages. -/
theorem round_up_to_overflows_witness :
    usizeMax 4 - (4096 - 1) < usizeMax 4 ∧
    Bytes.roundUpToPages 4 4096 (Bytes.mk (usizeMax 4)) = none := by
  refine ⟨by decide, ?_⟩
  have h := round_up_to_overflows 4 (usizeMax 4) 4096 (by decide) (by decide)
  simp [Bytes.roundUpToPages, h]

/-- C10: whenever no intermediate overflow occurs (`b + w` fits in `usize`),
rounding `Bytes(b)` up to words and converting the result exactly back to
bytes yields the least multiple of the word size that is at least `b`; in
particular the covering byte count is at least `b`. -/
theorem bytes_roundUpToWords_least_cover (w b : Nat) (hw : 0 < w)
    (hfit : b + w ≤ usizeMax w) :
    ∃ r, Bytes.roundUpToWords w (Bytes.mk b) = some (Words.mk r) ∧
      wordsToBytes w (Words.mk r) = some (Bytes.mk (r * w)) ∧
      w ∣ r * w ∧ b ≤ r * w ∧
      ∀ m, b ≤ m * w → r * w ≤ m * w := by
  obtain ⟨h1, h2, h3⟩ := round_up_to_spec w b w hw hfit
  refine ⟨(b + w - 1) / w, ?_, ?_, dvd_mul_left w _, h2, ?_⟩
  · simp [Bytes.roundUpToWords, h1]
  · have hub : (b + w - 1) / w * w ≤ b + w - 1 := Nat.div_mul_le_self _ _
    have hr : (b + w - 1) / w * w ≤ usizeMax w := by omega
    simp [wordsToBytes, checkedMul, hr]
  · intro m hm
    exact Nat.mul_le_mul_right w (h3 m hm)

/-- C10 witness: `Bytes(13)` with 4-byte words rounds up to a word count
whose exact byte conversion is the least multiple of 4 covering 13. -/
theorem bytes_roundUpToWords_least_cover_witness :
    ∃ r, Bytes.roundUpToWords 4 (Bytes.mk 13) = some (Words.mk r) ∧
      wordsToBytes 4 (Words.mk r) = some (Bytes.mk (r * 4)) ∧
      4 ∣ r * 4 ∧ 13 ≤ r * 4 ∧
      ∀ m, 13 ≤ m * 4 → r * 4 ≤ m * 4 :=
  bytes_roundUpToWords_least_cover 4 13 (by decide) (by decide)

end MemoryUnits
